import Mathlib

/-!
Verification of the parallel map-filter-reduce engine described by this
repository: the `CustomCC` CountedCompleter subclass of the blog post
`_posts/2019-12-28-CountedCompleter.md`, and the presized-collectors patch
to `java.util.stream` (`Collector` / `Collectors` / `ReduceOps` /
`ReferencePipeline`) kept in the repository as an hg changeset.

All definitions are shallow embeddings translated from that source; machine
integers are modelled as `Nat` / `Int` with explicit wrapping where it
matters.
-/

namespace CCStream

/-! ## The `CustomCC` task scheduler
Embedded from `CustomCC` in `_posts/2019-12-28-CountedCompleter.md`. -/

/-- Fuel-driven bit length: `bitLenAux fuel n` is the number of binary digits
of `n`, provided `n ≤ fuel`.  Helper for `bitLen`. -/
def bitLenAux : Nat → Nat → Nat
  | 0, _ => 0
  | fuel + 1, n => if n = 0 then 0 else bitLenAux fuel (n / 2) + 1

/-- Number of binary digits of `n` (`0` has bit length `0`). -/
def bitLen (n : Nat) : Nat :=
  bitLenAux n n

/-- Java's `Integer.numberOfLeadingZeros`, for arguments below `2 ^ 32`:
`32` minus the bit length. -/
def numberOfLeadingZeros32 (x : Nat) : Nat :=
  32 - bitLen x

/-- The source's `CustomCC.computeInitialPending`, generalized over the two configuration
constants of the source (`TARGET_LEAVES`, which the source sets to
`availableProcessors << 2`, and `MIN_SIZE_PER_LEAF`, which it sets to
`10_000`):
`leaves = Math.min(TARGET_LEAVES, size / MIN_SIZE_PER_LEAF)`, result `0`
when `leaves == 0`, else `31 - Integer.numberOfLeadingZeros(leaves)`. -/
def computeInitialPending (targetLeaves minSizePerLeaf size : Nat) : Nat :=
  let leaves := min targetLeaves (size / minSizePerLeaf)
  if leaves = 0 then 0 else 31 - numberOfLeadingZeros32 leaves

/-- The fork loop of `CustomCC.compute`: a task at position `pos` with
`size` elements and pending count `p` forks, for `p' = p-1` down to `0`,
a child `(pos + size', size', p')` where `size'` is the repeatedly halved
`size` (`size >>>= 1`), the current task keeping the halved front part.
The returned list is in fork order, each entry `(childPos, childSize,
childPending)`. -/
def computeForks : Nat → Nat → Nat → List (Nat × Nat × Nat)
  | _, _, 0 => []
  | pos, size, p + 1 => (pos + size / 2, size / 2, p) :: computeForks pos (size / 2) p

/-- The value of the `size` field of a `CustomCC` task after its fork loop
has run: the loop body executes `size >>>= 1` once per pending child. -/
def afterForkLoopSize : Nat → Nat → Nat
  | size, 0 => size
  | size, p + 1 => afterForkLoopSize (size / 2) p

/-- The leaf sub-ranges `(lo, length)` produced by a task `(pos, size, p)`
and all its transitively forked children, listed left to right.  A task
with pending `p+1` first behaves as the task `(pos, size / 2, p)` (its own
continuation after the first fork) and its first-forked child is
`(pos + size / 2, size / 2, p)`. -/
def leafRanges : Nat → Nat → Nat → List (Nat × Nat)
  | pos, size, 0 => [(pos, size)]
  | pos, size, p + 1 =>
      leafRanges pos (size / 2) p ++ leafRanges (pos + size / 2) (size / 2) p

/-- The leaf loop of `CustomCC.compute`, generalized over the filter+map+fold
body (the source's body is `if (e < 150) res += fnv(e) % 5`): guarded by
`arr.length >= hi && i >= 0 && i < hi` with `hi = pos + size`, then a
do-while accumulating `step` over indices `pos, pos+1, ..., hi-1`. -/
def leafCompute {M : Type} (arrLen : Nat) (step : M → Nat → M) (res : M)
    (pos size : Nat) : M :=
  if pos + size ≤ arrLen ∧ pos < pos + size then
    List.foldl step res (List.range' pos size)
  else res

/-- The final `res` of a `CustomCC` task `(pos, size, p)` once it and all its
children have completed.  In the source, a task starts with `res = z`
(`long res = 0`), folds its own leaf range into `res` during `compute`, and
in `onCompletion` folds `op` over `subs[0], ..., subs[p-1]` (`for (CustomCC
sub : subs) res += sub.res`).  Because `subs[0..p-1]` of a task with pending
`p+1` are exactly the subtasks of its continuation `(pos, size/2, p)` and
`subs[p]` is its first-forked child `(pos + size/2, size/2, p)`, that
left fold is literally `op (res of continuation) (res of first child)`,
which is this recursion; no associativity of `op` is assumed. -/
def taskRes {M : Type} (arrLen : Nat) (step : M → Nat → M) (op : M → M → M)
    (z : M) : Nat → Nat → Nat → M
  | pos, size, 0 => leafCompute arrLen step z pos size
  | pos, size, p + 1 =>
      op (taskRes arrLen step op z pos (size / 2) p)
         (taskRes arrLen step op z (pos + size / 2) (size / 2) p)

/-- Whole-job result of the scheduler: the root task is
`CustomCC(arr) = CustomCC(null, arr, arr.length, 0,
computeInitialPending(arr.length))`. -/
def customCCReduce {M : Type} (targetLeaves minSizePerLeaf : Nat)
    (step : M → Nat → M) (op : M → M → M) (z : M) (N : Nat) : M :=
  taskRes N step op z 0 N (computeInitialPending targetLeaves minSizePerLeaf N)

/-- The sequential left-to-right pass of the same filter+map+fold, from the
source's baseline loop `for (int i : array) if (i < 150) res += fnv(i) % 5`,
generalized over the body. -/
def seqReduce {M : Type} (step : M → Nat → M) (z : M) (N : Nat) : M :=
  List.foldl step z (List.range N)

/-- A concrete filter+map+fold instance: every element passes the filter and
maps to `1`, so the reduction counts the processed elements. -/
def countStep (acc : Nat) (_i : Nat) : Nat :=
  acc + 1

/-! ## The presized-collectors patch
Embedded from the hg changeset `enable Collector pre-sizing`
(`src/unnamed/part_000`), which patches `java.util.stream`. -/

/-- Collector characteristic flags (`Collector.Characteristics`). -/
structure Characteristics where
  concurrent : Bool
  unordered : Bool
  identityFinish : Bool

/-- The two stream-state predicates `ReferencePipeline.collect` consults. -/
structure StreamCtx where
  isParallel : Bool
  isOrdered : Bool

/-- Which terminal evaluation path `ReferencePipeline.collect` takes. -/
inductive CollectStrategy : Type
  | unorderedConcurrent
  | orderedReduce
deriving DecidableEq

/-- The strategy choice of `ReferencePipeline.collect`:
`isParallel() && characteristics.contains(CONCURRENT) && (!isOrdered() ||
characteristics.contains(UNORDERED))` selects
`UnorderedConcurrentCollectorOp`, anything else `ReduceOps.makeRef`. -/
def collectStrategy (ctx : StreamCtx) (ch : Characteristics) : CollectStrategy :=
  if ctx.isParallel && ch.concurrent && (!ctx.isOrdered || ch.unordered) then
    CollectStrategy.unorderedConcurrent
  else CollectStrategy.orderedReduce

/-- The two container factories of a `Collector` that the patched
accumulator-creation sites use.  `sizedSupplier` takes a Java `int`
(which may be negative after a narrowing cast), hence `Int`. -/
structure Collector (A : Type) where
  sizedSupplier : Int → A
  supplier : Unit → A

/-- Java's narrowing conversion `(int) size` from `long` to `int`:
wrap into `[-2^31, 2^31)`. -/
def intCast32 (n : Int) : Int :=
  (n + 2 ^ 31) % 2 ^ 32 - 2 ^ 31

/-- Accumulator creation in
`UnorderedConcurrentCollectorOp.evaluateParallel`:
`if ((size = helper.exactOutputSizeIfKnown(spliterator)) != -1)
res = collector.sizedSupplier().apply((int) size); else
res = collector.supplier().get();`. -/
def evaluateParallelAcc {A : Type} (c : Collector A) (exactSize : Int) : A :=
  if exactSize ≠ -1 then c.sizedSupplier (intCast32 exactSize) else c.supplier ()

/-- Accumulator creation in `ReducingSink.begin(long size)` of
`ReduceOps.makeRef`: `if (size == -1) state = collector.supplier().get();
else state = collector.sizedSupplier().apply((int) size);`. -/
def reducingSinkBegin {A : Type} (c : Collector A) (size : Int) : A :=
  if size = -1 then c.supplier () else c.sizedSupplier (intCast32 size)

/-- Free accumulator values recording which factory created the container
and with what requested capacity: two collector containers are
distinguishable exactly by their construction. -/
inductive AccSource : Type
  | viaNew
  | viaSized (cap : Int)
deriving DecidableEq

/-- The collector over free accumulator values. -/
def freeCollector : Collector AccSource :=
  { sizedSupplier := AccSource.viaSized, supplier := fun _ => AccSource.viaNew }

/-- Variant of `ReducingSink.begin` for a collector whose sized factory can fail
(Java: `sizedSupplier().apply(cap)` may throw, e.g.
`new ArrayList<>(cap)` for negative `cap`); the source wraps the call in
no try/catch, so in the `Option` model the factory's outcome is returned
unchanged. -/
def fallibleBegin {A : Type} (sizedNew : Int → Option A) (newAcc : Unit → A)
    (size : Int) : Option A :=
  if size = -1 then some (newAcc ()) else sizedNew (intCast32 size)

/-- The sized factory of `Collectors.toList()` after the patch,
`(IntFunction<List<T>>) ArrayList::new`, at the level of capacities:
`new ArrayList<>(cap)` throws for negative `cap` and otherwise yields an
empty list of the requested capacity (modelled by its capacity). -/
def arrayListSizedNew (cap : Int) : Option Int :=
  if cap < 0 then none else some cap

/-- The default body of `Collector.sizedSupplier()`:
`return ignored -> supplier().get();`. -/
def defaultSizedSupplier {A : Type} (supplier : Unit → A) : Int → A :=
  fun _ => supplier ()

/-- The supplier-only `Collector.of` overloads:
`return of(ignored -> supplier.get(), supplier, ...)`. -/
def collectorOfSupplierOnly {A : Type} (supplier : Unit → A) : Collector A :=
  { sizedSupplier := fun _ => supplier (), supplier := supplier }

/-- The supplier-only `Collectors.CollectorImpl` constructor:
`this(ignored -> supplier.get(), supplier, ...)`. -/
def collectorImplSupplierOnly {A : Type} (supplier : Unit → A) : Collector A :=
  { sizedSupplier := defaultSizedSupplier supplier, supplier := supplier }

/-! ## The completion-propagation protocol -/

/-- Modelled from the spec: the `pendingCount` decrement protocol of
`CountedCompleter.tryComplete`, whose implementation lives in
`java.util.concurrent` and is not part of this repository (the repository
only subclasses it).  Spec 4.4: a parent task tracks `pendingCount`, the
number of not-yet-completed direct children, and each completing child
atomically decrements it; the state also counts how many merge callbacks
have run. -/
structure ParentState where
  pending : Nat
  merges : Nat
deriving DecidableEq

/-- Modelled from the spec: one child completion — atomically decrement the
parent's `pendingCount`; only the completion observing the post-decrement
value exactly `0` executes the merge step. -/
def childComplete (s : ParentState) : ParentState :=
  let p := s.pending - 1
  { pending := p, merges := if p = 0 then s.merges + 1 else s.merges }

/-- Modelled from the spec: run a serialized interleaving of child
completions.  Atomicity of the decrement means every interleaving of the
children's completion events is some total order, i.e. a list of child
ids processed in sequence. -/
def runCompletions (s : ParentState) : List Nat → ParentState
  | [] => s
  | _ :: rest => runCompletions (childComplete s) rest

/-! ## Helper lemmas -/

lemma bitLenAux_zero (fuel : Nat) : bitLenAux fuel 0 = 0 := by
  cases fuel <;> simp [bitLenAux]

lemma bitLenAux_eq_log2 (fuel : Nat) :
    ∀ n : Nat, n ≠ 0 → n ≤ fuel → bitLenAux fuel n = Nat.log2 n + 1 := by
  induction fuel with
  | zero => intro n hn hle; omega
  | succ fuel ih =>
      intro n hn hle
      rw [bitLenAux, if_neg hn]
      by_cases h2 : 2 ≤ n
      · have hhalf : n / 2 ≠ 0 := by omega
        have hfuel : n / 2 ≤ fuel := by omega
        rw [ih (n / 2) hhalf hfuel]
        conv_rhs => rw [Nat.log2]
        rw [if_pos h2]
      · have h1 : n = 1 := by omega
        subst h1
        simp [bitLenAux_zero, Nat.log2]

lemma bitLen_eq_log2 (n : Nat) (hn : n ≠ 0) : bitLen n = Nat.log2 n + 1 :=
  bitLenAux_eq_log2 n n hn le_rfl

lemma log2_zero_eq : Nat.log2 0 = 0 := by
  simp [Nat.log2]

lemma log2_one_eq : Nat.log2 1 = 0 := by
  simp [Nat.log2]

lemma computeInitialPending_eq_log2 (t m N : Nat) (ht : t < 2 ^ 31) :
    computeInitialPending t m N = Nat.log2 (min t (N / m)) := by
  unfold computeInitialPending
  set leaves := min t (N / m) with hleaves
  by_cases h0 : leaves = 0
  · simp [h0, log2_zero_eq]
  · have hlt : leaves < 2 ^ 31 := by
      have : leaves ≤ t := by rw [hleaves]; exact Nat.min_le_left _ _
      omega
    have hlog : Nat.log2 leaves < 31 := (Nat.log2_lt h0).mpr hlt
    have hbit : bitLen leaves = Nat.log2 leaves + 1 := bitLen_eq_log2 leaves h0
    rw [if_neg h0]
    unfold numberOfLeadingZeros32
    omega

/-! ## C3 -/

/-- C3: for every input size `N`, `computeInitialPending` returns
`⌊log2 leaves⌋` with `leaves = min targetLeafCount ⌊N / minElementsPerLeaf⌋`
(in particular `0` when `leaves` is `0` or `1`), and a zero pending count
means the root forks no children and keeps the single leaf range `[0, N)`,
which the leaf loop processes sequentially. -/
theorem computeInitialPending_log2_and_sequential (t m N : Nat)
    (ht : t < 2 ^ 31) :
    computeInitialPending t m N = Nat.log2 (min t (N / m)) ∧
    (min t (N / m) ≤ 1 → computeInitialPending t m N = 0) ∧
    (computeInitialPending t m N = 0 →
      computeForks 0 N (computeInitialPending t m N) = [] ∧
      leafRanges 0 N (computeInitialPending t m N) = [(0, N)]) := by
  have hmain := computeInitialPending_eq_log2 t m N ht
  refine ⟨hmain, ?_, ?_⟩
  · intro hle
    rw [hmain]
    interval_cases h : min t (N / m)
    · exact log2_zero_eq
    · exact log2_one_eq
  · intro h0
    rw [h0]
    exact ⟨rfl, rfl⟩

/-- Concrete instance of C3's main equation, with the configuration
`targetLeafCount = 64`, `minElementsPerLeaf = 10000`, `N = 1000000`. -/
theorem computeInitialPending_log2_witness :
    computeInitialPending 64 10000 1000000 = Nat.log2 (min 64 (1000000 / 10000)) :=
  (computeInitialPending_log2_and_sequential 64 10000 1000000 (by decide)).1

/-! ## C4 -/

lemma afterForkLoopSize_eq (p : Nat) :
    ∀ size : Nat, afterForkLoopSize size p = size / 2 ^ p := by
  induction p with
  | zero => intro size; simp [afterForkLoopSize]
  | succ p ih =>
      intro size
      rw [afterForkLoopSize, ih (size / 2), Nat.div_div_eq_div_mul]
      congr 1
      rw [Nat.pow_succ]
      ring

lemma leafRanges_ne_nil (p : Nat) :
    ∀ pos size : Nat, leafRanges pos size p ≠ [] := by
  induction p with
  | zero => intro pos size; simp [leafRanges]
  | succ p ih =>
      intro pos size
      rw [leafRanges]
      simp only [ne_eq, List.append_eq_nil]
      intro h
      exact ih pos (size / 2) h.1

lemma leafRanges_head (p : Nat) :
    ∀ pos size : Nat, (leafRanges pos size p).head? = some (pos, size / 2 ^ p) := by
  induction p with
  | zero => intro pos size; simp [leafRanges]
  | succ p ih =>
      intro pos size
      rw [leafRanges]
      rcases hA : leafRanges pos (size / 2) p with _ | ⟨x, xs⟩
      · exact absurd hA (leafRanges_ne_nil p pos (size / 2))
      · have hx : x = (pos, size / 2 / 2 ^ p) := by
          have := ih pos (size / 2)
          rw [hA] at this
          simpa using this
        subst hx
        simp [Nat.div_div_eq_div_mul, Nat.pow_succ, Nat.mul_comm]

/-- C4: a task constructed with pending count `p` forks exactly `p`
children, whose pending counts in fork order are `p-1, p-2, ..., 0`; the
`i`-th fork halves the current task's remaining size, the forked child
taking the back part `(pos + size / 2^(i+1), size / 2^(i+1))` while the
current task keeps the front part at `pos`; after the loop the task's own
remaining size is `size / 2^p`, and `(pos, size / 2^p)` is the first (its
own) leaf range it then processes. -/
theorem computeForks_shape (pos size p : Nat) :
    computeForks pos size p =
      (List.range p).reverse.map
        (fun q => (pos + size / 2 ^ (p - q), size / 2 ^ (p - q), q)) ∧
    afterForkLoopSize size p = size / 2 ^ p ∧
    (leafRanges pos size p).head? = some (pos, size / 2 ^ p) := by
  refine ⟨?_, afterForkLoopSize_eq p size, leafRanges_head p pos size⟩
  induction p generalizing pos size with
  | zero => simp [computeForks]
  | succ p ih =>
      rw [computeForks, List.range_succ, List.reverse_append]
      simp only [List.reverse_singleton, List.singleton_append, List.map_cons]
      congr 1
      · simp
      · rw [ih pos (size / 2)]
        apply List.map_congr_left
        intro q hq
        rw [List.mem_reverse, List.mem_range] at hq
        have h1 : p + 1 - q = (p - q) + 1 := by omega
        rw [h1, Nat.div_div_eq_div_mul, Nat.pow_succ, Nat.mul_comm]

/-! ## C1 and C2: the splitter drops elements when a halved size is odd -/

/-- General accounting for the halving splitter: the leaf range lengths of a
task `(pos, size, p)` sum to `2^p * ⌊size / 2^p⌋`, which is strictly less
than `size` whenever `2^p` does not divide `size`. -/
lemma leafRanges_length_sum (p : Nat) :
    ∀ pos size : Nat,
      ((leafRanges pos size p).map (fun r => r.2)).sum = 2 ^ p * (size / 2 ^ p) := by
  induction p with
  | zero => intro pos size; simp [leafRanges]
  | succ p ih =>
      intro pos size
      rw [leafRanges]
      simp only [List.map_append, List.sum_append, ih]
      rw [Nat.div_div_eq_div_mul]
      have h2 : 2 * 2 ^ p = 2 ^ (p + 1) := by rw [Nat.pow_succ]; ring
      rw [h2]
      ring

lemma foldl_op_shift {M : Type} (step : M → Nat → M) (op : M → M → M)
    (hcompat : ∀ a b i, step (op a b) i = op a (step b i)) :
    ∀ (l : List Nat) (a b : M),
      List.foldl step (op a b) l = op a (List.foldl step b l) := by
  intro l
  induction l with
  | nil => intro a b; rfl
  | cons i l ih =>
      intro a b
      simp only [List.foldl_cons]
      rw [hcompat, ih]

/-- Conversely, the forest loses nothing when every halving is exact: if
`2^p` divides `size` (and the range lies inside the array, and folding one
element commutes with `op` so that the combine is order-preserving with
right identity `z`), the task `(pos, size, p)` computes exactly the
sequential left-to-right fold of its range — so the C1/C2 failures are
precisely the dropped-element cases. -/
theorem taskRes_eq_seq_of_dvd {M : Type} (step : M → Nat → M)
    (op : M → M → M) (z : M)
    (hcompat : ∀ a b i, step (op a b) i = op a (step b i))
    (hz : ∀ a, op a z = a) (arrLen : Nat) :
    ∀ p pos size : Nat, 2 ^ p ∣ size → pos + size ≤ arrLen →
      taskRes arrLen step op z pos size p
        = List.foldl step z (List.range' pos size) := by
  intro p
  induction p with
  | zero =>
      intro pos size _ hle
      rw [taskRes]
      unfold leafCompute
      rcases size with _ | s
      · simp
      · rw [if_pos ⟨hle, by omega⟩]
  | succ p ih =>
      intro pos size hdvd hle
      have h2 : (2 : Nat) ∣ size :=
        dvd_trans ⟨2 ^ p, by rw [Nat.pow_succ]; ring⟩ hdvd
      have heven : size / 2 + size / 2 = size := by omega
      have hdvd2 : 2 ^ p ∣ size / 2 := by
        obtain ⟨k, hk⟩ := hdvd
        refine ⟨k, ?_⟩
        have hk2 : size = 2 * (2 ^ p * k) := by rw [hk, Nat.pow_succ]; ring
        rw [hk2, Nat.mul_div_cancel_left _ (by norm_num)]
      rw [taskRes, ih pos (size / 2) hdvd2 (by omega),
        ih (pos + size / 2) (size / 2) hdvd2 (by omega)]
      have hsplit : List.range' pos size
          = List.range' pos (size / 2) ++ List.range' (pos + size / 2) (size / 2) := by
        rw [List.range'_append_1, heven]
      rw [hsplit, List.foldl_append]
      conv_rhs => rw [← hz (List.foldl step z (List.range' pos (size / 2)))]
      rw [foldl_op_shift step op hcompat]

/-- Top-level form of the converse: when `2^initialPending` divides `N`,
the whole scheduler agrees with the sequential pass. -/
theorem customCCReduce_eq_seq_of_dvd {M : Type} (step : M → Nat → M)
    (op : M → M → M) (z : M)
    (hcompat : ∀ a b i, step (op a b) i = op a (step b i))
    (hz : ∀ a, op a z = a) (t m N : Nat)
    (hdvd : 2 ^ computeInitialPending t m N ∣ N) :
    customCCReduce t m step op z N = seqReduce step z N := by
  unfold customCCReduce seqReduce
  rw [taskRes_eq_seq_of_dvd step op z hcompat hz N _ 0 N hdvd (by omega),
    List.range_eq_range']

set_option maxRecDepth 16384 in
/-- C2 fails on the code: at input length `N = 3` with configuration
`targetLeafCount = 4`, `minElementsPerLeaf = 1`, the initial pending count
is `1` and the fork loop produces the leaf ranges `[0,1)` and `[1,2)`:
their lengths sum to `2 ≠ 3` and index `2` lies in no leaf range, because
halving the odd size `3` gives the forked child only `⌊3/2⌋ = 1` elements
and the element between the two halves is lost.  The same slip is reachable
with the constants hard-coded in the source (`MIN_SIZE_PER_LEAF = 10000`,
`TARGET_LEAVES = 160` on the 40-core machine of the post): at
`N = 3000000` the pending count is `7` and the 128 leaf lengths sum to
`2999936`, dropping 64 elements. -/
theorem leafRanges_gap_eval :
    computeInitialPending 4 1 3 = 1 ∧
    leafRanges 0 3 (computeInitialPending 4 1 3) = [(0, 1), (1, 1)] ∧
    ((leafRanges 0 3 (computeInitialPending 4 1 3)).map (fun r => r.2)).sum = 2 ∧
    ((leafRanges 0 3 (computeInitialPending 4 1 3)).all
      (fun r => decide (2 < r.1) || decide (r.1 + r.2 ≤ 2))) = true ∧
    computeInitialPending 160 10000 3000000 = 7 ∧
    ((leafRanges 0 3000000 (computeInitialPending 160 10000 3000000)).map
      (fun r => r.2)).sum = 2999936 := by
  decide

/-- C1 fails on the code: with the order-preserving associative combine
`Nat.add`, identity `0`, and the element-counting filter+map+fold
`countStep` (every element passes the filter and maps to `1`), the
parallel-ordered task forest over `N = 3` elements (configuration
`targetLeafCount = 4`, `minElementsPerLeaf = 1`) computes `2`, while the
sequential left-to-right pass computes `3`: the forest never visits the
dropped element. -/
theorem customCC_drops_element_eval :
    customCCReduce 4 1 countStep Nat.add 0 3 = 2 ∧
    seqReduce countStep 0 3 = 3 ∧
    customCCReduce 4 1 countStep Nat.add 0 3 ≠ seqReduce countStep 0 3 := by
  decide

/-! ## C5 -/

/-- C5: for the empty input (`N = 0`) the pending count is `0`, the root
task forks no children, and the scheduler returns the untouched initial
accumulator `z` (the leaf loop's guard `i < hi` fails, so its body never
runs); in particular the sum-style collector instance returns `0`. -/
theorem cc_empty_input (M : Type) (step : M → Nat → M) (op : M → M → M)
    (z : M) (t m : Nat) :
    computeInitialPending t m 0 = 0 ∧
    computeForks 0 0 (computeInitialPending t m 0) = [] ∧
    leafCompute 0 step z 0 0 = z ∧
    customCCReduce t m step op z 0 = z ∧
    customCCReduce t m countStep Nat.add 0 0 = 0 := by
  have hp : computeInitialPending t m 0 = 0 := by
    simp [computeInitialPending]
  refine ⟨hp, ?_, ?_, ?_, ?_⟩
  · rw [hp]; rfl
  · simp [leafCompute]
  · unfold customCCReduce
    rw [hp]
    simp [taskRes, leafCompute]
  · unfold customCCReduce
    rw [hp]
    simp [taskRes, leafCompute]

/-! ## C6, C7, C8 -/

lemma intCast32_eq_self (n : Int) (h0 : 0 ≤ n) (h1 : n < 2 ^ 31) :
    intCast32 n = n := by
  unfold intCast32
  rw [Int.emod_eq_of_lt (by omega) (by omega)]
  omega

/-- C6: `ReferencePipeline.collect` evaluates through the single shared
accumulator (`UnorderedConcurrentCollectorOp`) exactly when the pipeline is
parallel, the collector is `CONCURRENT`, and the stream is unordered or the
collector is `UNORDERED`; every other combination goes through the ordered
`ReduceOps.makeRef` path.  When the shared strategy runs and the exact
output size `N` is known (not reported as `-1`), the shared accumulator is
created by `sizedSupplier(N)`, and by `supplier()` when the size is
unknown. -/
theorem collect_strategy_selection (ctx : StreamCtx) (ch : Characteristics)
    (N : Int) (h0 : 0 ≤ N) (h1 : N < 2 ^ 31) :
    (collectStrategy ctx ch = CollectStrategy.unorderedConcurrent ↔
      ctx.isParallel = true ∧ ch.concurrent = true ∧
        (ctx.isOrdered = false ∨ ch.unordered = true)) ∧
    (collectStrategy ctx ch ≠ CollectStrategy.unorderedConcurrent →
      collectStrategy ctx ch = CollectStrategy.orderedReduce) ∧
    evaluateParallelAcc freeCollector N = AccSource.viaSized N ∧
    evaluateParallelAcc freeCollector (-1) = AccSource.viaNew := by
  refine ⟨?_, ?_, ?_, rfl⟩
  · obtain ⟨p, o⟩ := ctx
    obtain ⟨c, u, idf⟩ := ch
    cases p <;> cases o <;> cases c <;> cases u <;>
      simp [collectStrategy]
  · intro h
    rcases hs : collectStrategy ctx ch
    · exact absurd hs h
    · rfl
  · unfold evaluateParallelAcc
    rw [if_pos (by omega), intCast32_eq_self N h0 h1]
    rfl

/-- Instance of C6's sizing clause: a known exact size of `5` presizes the
shared accumulator to `5`. -/
theorem collect_strategy_selection_witness :
    evaluateParallelAcc freeCollector 5 = AccSource.viaSized 5 :=
  (collect_strategy_selection ⟨true, true⟩ ⟨true, false, false⟩ 5 (by decide)
    (by decide)).2.2.1

/-- C7: in the ordered reduce path, `ReducingSink.begin` creates the
accumulator with the default-capacity `supplier()` exactly when the element
count is reported as `-1` (unknown), and with `sizedSupplier(count)` in
every other case — no presizing happens for an unknown total length. -/
theorem reducingSink_begin_sizing (count : Int) (h0 : 0 ≤ count)
    (h1 : count < 2 ^ 31) :
    (∀ s : Int, reducingSinkBegin freeCollector s = AccSource.viaNew ↔ s = -1) ∧
    reducingSinkBegin freeCollector count = AccSource.viaSized count ∧
    reducingSinkBegin freeCollector (-1) = AccSource.viaNew := by
  refine ⟨?_, ?_, rfl⟩
  · intro s
    by_cases hs : s = -1 <;> simp [reducingSinkBegin, hs, freeCollector]
  · unfold reducingSinkBegin
    rw [if_neg (by omega), intCast32_eq_self count h0 h1]
    rfl

/-- Instance of C7's sizing clause: a known count of `5` presizes to `5`. -/
theorem reducingSink_begin_sizing_witness :
    reducingSinkBegin freeCollector 5 = AccSource.viaSized 5 :=
  (reducingSink_begin_sizing 5 (by decide) (by decide)).2.1

/-- C8 fails on the code: with the `toList`-style sized factory (which
rejects negative capacities) and a reported size of `2^31` — whose
narrowing to a Java `int` is the negative `-2^31` — `ReducingSink.begin`
propagates the factory's failure (`none`) instead of recovering with the
default-capacity `new()` accumulator (`some 0`): there is no try/catch
around `sizedSupplier().apply((int) size)` anywhere in the patch. -/
theorem sizedNew_failure_not_recovered :
    fallibleBegin arrayListSizedNew (fun _ => (0 : Int)) (2 ^ 31) = none ∧
    fallibleBegin arrayListSizedNew (fun _ => (0 : Int)) (2 ^ 31)
      ≠ some ((fun _ => (0 : Int)) ()) := by
  decide

/-- C8 amended: there is no local recovery — for every reported size other
than `-1`, `ReducingSink.begin` returns exactly the outcome of the sized
factory applied to the int-narrowed size, so a failing `sizedNew` makes
the reduction fail; the default-capacity `new()` container is used only
when the size is reported as `-1` (unknown). -/
theorem begin_failure_propagates (A : Type) (sizedNew : Int → Option A)
    (newAcc : Unit → A) (size : Int) (h : size ≠ -1) :
    fallibleBegin sizedNew newAcc size = sizedNew (intCast32 size) ∧
    fallibleBegin sizedNew newAcc (-1) = some (newAcc ()) := by
  constructor
  · unfold fallibleBegin
    rw [if_neg h]
  · rfl

/-- Instance of C8's amended claim at the failing size `2^31`. -/
theorem begin_failure_propagates_witness :
    fallibleBegin arrayListSizedNew (fun _ => (0 : Int)) (2 ^ 31)
      = arrayListSizedNew (intCast32 (2 ^ 31)) :=
  (begin_failure_propagates Int arrayListSizedNew (fun _ => (0 : Int)) (2 ^ 31)
    (by decide)).1

/-! ## C9 -/

lemma runCompletions_formula (l : List Nat) :
    ∀ p mrg : Nat, 0 < p → l.length ≤ p →
      (runCompletions ⟨p, mrg⟩ l).pending = p - l.length ∧
      (runCompletions ⟨p, mrg⟩ l).merges
        = mrg + (if l.length = p then 1 else 0) := by
  induction l with
  | nil =>
      intro p mrg hp hlen
      simp only [runCompletions, List.length_nil]
      constructor
      · omega
      · rw [if_neg (by omega)]
        omega
  | cons x rest ih =>
      intro p mrg hp hlen
      simp only [List.length_cons] at hlen ⊢
      rw [runCompletions]
      have hstep : childComplete ⟨p, mrg⟩
          = ⟨p - 1, if p - 1 = 0 then mrg + 1 else mrg⟩ := rfl
      rw [hstep]
      by_cases hone : p = 1
      · subst hone
        have hrest : rest = [] := by
          have : rest.length = 0 := by omega
          exact List.length_eq_zero.mp this
        subst hrest
        simp [runCompletions]
      · have hp1 : 0 < p - 1 := by omega
        have hlen1 : rest.length ≤ p - 1 := by omega
        rw [if_neg (by omega)]
        obtain ⟨h1, h2⟩ := ih (p - 1) mrg hp1 hlen1
        refine ⟨by rw [h1]; omega, ?_⟩
        rw [h2]
        by_cases he : rest.length = p - 1
        · rw [if_pos he, if_pos (by omega)]
        · rw [if_neg he, if_neg (by omega)]

/-- C9: for a task with `c` children, in every interleaving of the sibling
completions (every serialization `trace` in which each child completes
exactly once — atomicity of the decrement makes every concurrent schedule
such a total order), the parent's `pendingCount` decreases `c-1, ..., 1, 0`;
after every proper prefix it is still positive and no merge has run, and
after the full trace it is `0` and the merge step has run exactly once:
only the completion observing the post-decrement value exactly `0`
proceeds, and no completion waits on a sibling (each runs one terminating
decrement step and returns). -/
theorem completion_cascade_unique_merger (c : Nat) (hc : 0 < c)
    (trace : List Nat) (hperm : trace.Perm (List.range c)) :
    (runCompletions ⟨c, 0⟩ trace).merges = 1 ∧
    (runCompletions ⟨c, 0⟩ trace).pending = 0 ∧
    ∀ k : Nat, k < c →
      (runCompletions ⟨c, 0⟩ (List.take k trace)).merges = 0 ∧
      0 < (runCompletions ⟨c, 0⟩ (List.take k trace)).pending := by
  have hlen : trace.length = c := by
    rw [hperm.length_eq, List.length_range]
  obtain ⟨h1, h2⟩ := runCompletions_formula trace c 0 hc (by omega)
  refine ⟨?_, ?_, ?_⟩
  · rw [h2, hlen, if_pos rfl]
  · rw [h1, hlen]
    omega
  · intro k hk
    have htake : (List.take k trace).length = k := by
      rw [List.length_take]
      omega
    obtain ⟨g1, g2⟩ := runCompletions_formula (List.take k trace) c 0 hc
      (by omega)
    constructor
    · rw [g2, htake, if_neg (by omega)]
    · rw [g1, htake]
      omega

/-- Instance of C9 at `c = 2` children completing in the order `1, 0`:
the merge step runs exactly once. -/
theorem completion_cascade_unique_merger_witness :
    (runCompletions ⟨2, 0⟩ [1, 0]).merges = 1 :=
  (completion_cascade_unique_merger 2 (by decide) [1, 0] (by decide)).1

/-! ## C10 -/

/-- C10: every collector built without an explicit sized supplier — through
the default `Collector.sizedSupplier()` method, the supplier-only
`Collector.of` overloads, or the supplier-only `CollectorImpl`
constructors — has a `sizedSupplier` that ignores its capacity argument:
for all capacities `n` and `mcap` it produces exactly what `supplier()`
produces, so presizing is a no-op on such collectors. -/
theorem supplier_only_sized_ignores (A : Type) (s : Unit → A) (n mcap : Int) :
    defaultSizedSupplier s n = defaultSizedSupplier s mcap ∧
    defaultSizedSupplier s n = s () ∧
    (collectorOfSupplierOnly s).sizedSupplier n
      = (collectorOfSupplierOnly s).sizedSupplier mcap ∧
    (collectorOfSupplierOnly s).sizedSupplier n = (collectorOfSupplierOnly s).supplier () ∧
    (collectorImplSupplierOnly s).sizedSupplier n
      = (collectorImplSupplierOnly s).sizedSupplier mcap ∧
    (collectorImplSupplierOnly s).sizedSupplier n
      = (collectorImplSupplierOnly s).supplier () :=
  ⟨rfl, rfl, rfl, rfl, rfl, rfl⟩

end CCStream
